/-
Verification of the map data model and forward-folding evaluation pipeline
of the gammapy repository snapshot (Geom/Map/MapAxis subsystem, Dataset,
MapEvaluator, Cash statistic).

The snapshot ships only tutorial notebooks and configuration files; the
library code itself (gammapy.maps, gammapy.cube, gammapy.utils.fitting) is
not part of the snapshot.  Every definition below is therefore modelled
from the specification's description of the corresponding component, and
each doc comment says which part of the spec it embeds.  Values carried by
maps are rationals (the spec's numerics are exact arithmetic plus explicit
logarithms; logarithm-dependent pieces live in the real-valued section
further down).
-/
import Mathlib

namespace Gammapy

/-! ### Maps: geometry, tolerant indexing, filling

Modelled from the spec: a `Geometry` provides coordinate→index transforms
returning a "not contained" sentinel for points outside the geometry, and a
`Map` is a dense array bound to a geometry with tolerant integer indexing:
out-of-range reads return the not-a-number sentinel (modelled as `none`),
out-of-range writes are silently ignored, and no indexing operation ever
raises (all operations are total functions). -/

/-- Modelled from the spec: a geometry is an index space with per-dimension
bin counts (`shape`) plus a vectorized coordinate→index transform that
returns a "not contained" sentinel (`none`) for points outside the
geometry rather than raising. -/
structure Geom where
  shape : List ℕ
  coordToIdx : List ℚ → Option (List ℤ)

/-- An integer multi-index is in range for a shape when it has one entry per
dimension and each entry lies in `[0, shape_k)`. -/
def inRangeB (shape : List ℕ) (idx : List ℤ) : Bool :=
  idx.length == shape.length &&
    (idx.zip shape).all fun p => decide (0 ≤ p.1) && decide (p.1 < (p.2 : ℤ))

/-- Modelled from the spec: a `Map` is a dense data array bound to a
geometry.  The array is represented as a total function from integer
multi-indices to values; only in-range indices are ever observable through
the access API. -/
structure GMap where
  geom : Geom
  data : List ℤ → ℚ

/-- Modelled from the spec: `Map.create(geom)` returns a zero-filled map. -/
def GMap.create (g : Geom) : GMap := ⟨g, fun _ => 0⟩

/-- Modelled from the spec: `Map.get_by_idx` reads at an explicit integer
multi-index; out-of-range indices return the IEEE not-a-number sentinel
(modelled as `none`) instead of raising. -/
def GMap.get_by_idx (m : GMap) (idx : List ℤ) : Option ℚ :=
  if inRangeB m.geom.shape idx then some (m.data idx) else none

/-- Modelled from the spec: `Map.set_by_idx` writes at an explicit integer
multi-index; out-of-range indices are silently ignored (the map is returned
unchanged, never raising). -/
def GMap.set_by_idx (m : GMap) (idx : List ℤ) (v : ℚ) : GMap :=
  if inRangeB m.geom.shape idx then
    ⟨m.geom, fun j => if j = idx then v else m.data j⟩
  else m

/-- Modelled from the spec: filling one event — resolve the physical
coordinate through the geometry, then add (not overwrite) the weight into
the containing bin; events resolving outside the geometry are ignored
(tolerant contract). -/
def GMap.fillOne (m : GMap) (c : List ℚ) (w : ℚ) : GMap :=
  match m.geom.coordToIdx c with
  | none => m
  | some idx =>
      if inRangeB m.geom.shape idx then
        ⟨m.geom, fun j => if j = idx then m.data j + w else m.data j⟩
      else m

/-- Modelled from the spec: `Map.fill_by_coord` accumulates the given
weights into the bins containing the given coordinates. -/
def GMap.fill_by_coord (m : GMap) (events : List (List ℚ × ℚ)) : GMap :=
  events.foldl (fun acc e => acc.fillOne e.1 e.2) m

/-- Modelled from the spec (Maker contract): a counts map is produced from a
raw event list by a coordinate-binned histogram — fill a zero-filled map
with unit weights. -/
def histogram (g : Geom) (events : List (List ℚ)) : GMap :=
  GMap.fill_by_coord (GMap.create g) (events.map fun c => (c, 1))

/-! #### Basic lemmas about fill -/

theorem fillOne_geom (m : GMap) (c : List ℚ) (w : ℚ) :
    (m.fillOne c w).geom = m.geom := by
  unfold GMap.fillOne
  cases m.geom.coordToIdx c with
  | none => rfl
  | some idx => by_cases h : inRangeB m.geom.shape idx = true <;> simp [h]

theorem fill_by_coord_geom (m : GMap) (events : List (List ℚ × ℚ)) :
    (m.fill_by_coord events).geom = m.geom := by
  induction events generalizing m with
  | nil => rfl
  | cons e rest ih =>
      show ((m.fillOne e.1 e.2).fill_by_coord rest).geom = m.geom
      rw [ih, fillOne_geom]

/-- The increment contributed by one fill event at one index: the weight if
the event resolves to that (in-range) index, zero otherwise. -/
def fillDelta (g : Geom) (c : List ℚ) (w : ℚ) (j : List ℤ) : ℚ :=
  match g.coordToIdx c with
  | none => 0
  | some idx => if inRangeB g.shape idx ∧ j = idx then w else 0

theorem fillOne_data (m : GMap) (c : List ℚ) (w : ℚ) (j : List ℤ) :
    (m.fillOne c w).data j = m.data j + fillDelta m.geom c w j := by
  unfold GMap.fillOne fillDelta
  cases m.geom.coordToIdx c with
  | none => simp
  | some idx =>
      by_cases h : inRangeB m.geom.shape idx = true
      · by_cases hj : j = idx <;> simp [h, hj]
      · simp [h]

/-- The total increment contributed by a list of fill events at one index. -/
def fillDeltas (g : Geom) (events : List (List ℚ × ℚ)) (j : List ℤ) : ℚ :=
  (events.map fun e => fillDelta g e.1 e.2 j).sum

theorem fill_by_coord_data (m : GMap) (events : List (List ℚ × ℚ)) (j : List ℤ) :
    (m.fill_by_coord events).data j = m.data j + fillDeltas m.geom events j := by
  induction events generalizing m with
  | nil => simp [GMap.fill_by_coord, fillDeltas]
  | cons e rest ih =>
      show ((m.fillOne e.1 e.2).fill_by_coord rest).data j = _
      rw [ih, fillOne_data, fillOne_geom]
      simp only [fillDeltas, List.map_cons, List.sum_cons]
      ring

/-! ### Datasets and stacking

Modelled from the spec: a `Dataset` couples a counts map with co-registered
exposure and background maps; `stack` accumulates counts, exposure and
background additively, requires geometry compatibility, and fails with
`StackError` otherwise. -/

/-- Modelled from the spec: the typed error raised when stacking two
datasets with incompatible geometries. -/
inductive StackError where
  | geomMismatch
deriving DecidableEq

/-- Modelled from the spec: a dataset couples one map of observed counts
with co-registered maps of exposure and background. -/
structure Dataset where
  counts : GMap
  exposure : GMap
  background : GMap

/-- Pointwise sum of two maps sharing a geometry (the first operand's
geometry is kept). -/
def GMap.addData (m1 m2 : GMap) : GMap :=
  ⟨m1.geom, fun j => m1.data j + m2.data j⟩

/-- Modelled from the spec: `Dataset.stack` accumulates counts, exposure and
background additively; geometry compatibility (equal shapes) is required,
otherwise it fails with `StackError`. -/
def Dataset.stack (d1 d2 : Dataset) : Except StackError Dataset :=
  if d1.counts.geom.shape = d2.counts.geom.shape then
    .ok ⟨d1.counts.addData d2.counts, d1.exposure.addData d2.exposure,
         d1.background.addData d2.background⟩
  else .error .geomMismatch

/-- Modelled from the spec (Maker contract): build a per-observation dataset
on geometry `g` — counts histogrammed from the event list, exposure and
background as supplied by the instrument-response collaborators. -/
def mkDataset (g : Geom) (events : List (List ℚ)) (expo bg : GMap) : Dataset :=
  ⟨histogram g events, expo, bg⟩

theorem histogram_data (g : Geom) (events : List (List ℚ)) (j : List ℤ) :
    (histogram g events).data j =
      fillDeltas g (events.map fun c => (c, 1)) j := by
  unfold histogram
  rw [fill_by_coord_data]
  simp [GMap.create]

/-! ### Claim theorems about maps and datasets -/

/-- C5: for every map and every integer multi-index outside the map's
geometry, `get_by_idx` returns the not-a-number sentinel (modelled `none`)
and never raises (it is a total function), and `set_by_idx` silently
ignores the write, leaving the map unchanged; in-range indices are read and
written normally. -/
theorem tolerant_indexing (m : GMap) (idx : List ℤ) :
    (inRangeB m.geom.shape idx = false →
      m.get_by_idx idx = none ∧ ∀ v, m.set_by_idx idx v = m) ∧
    (inRangeB m.geom.shape idx = true →
      m.get_by_idx idx = some (m.data idx) ∧
        ∀ v, (m.set_by_idx idx v).data idx = v) := by
  constructor
  · intro h
    refine ⟨?_, fun v => ?_⟩ <;> simp [GMap.get_by_idx, GMap.set_by_idx, h]
  · intro h
    refine ⟨?_, fun v => ?_⟩ <;> simp [GMap.get_by_idx, GMap.set_by_idx, h]

/-- A small concrete fixture map: one dimension with two bins, zero data. -/
def mapFix : GMap := ⟨⟨[2], fun _ => none⟩, fun _ => 0⟩

theorem tolerant_indexing_witness :
    (inRangeB mapFix.geom.shape [5] = false ∧
      mapFix.get_by_idx [5] = none ∧ mapFix.set_by_idx [5] 7 = mapFix) ∧
    (inRangeB mapFix.geom.shape [1] = true ∧
      mapFix.get_by_idx [1] = some (mapFix.data [1])) :=
  ⟨⟨by decide, ((tolerant_indexing mapFix [5]).1 (by decide)).1,
      ((tolerant_indexing mapFix [5]).1 (by decide)).2 7⟩,
   ⟨by decide, ((tolerant_indexing mapFix [1]).2 (by decide)).1⟩⟩

/-- C9: for every map, every in-range integer multi-index and every value,
writing with `set_by_idx` and then reading with `get_by_idx` at the same
index returns exactly the written value. -/
theorem set_get_roundtrip (m : GMap) (idx : List ℤ) (v : ℚ)
    (h : inRangeB m.geom.shape idx = true) :
    (m.set_by_idx idx v).get_by_idx idx = some v := by
  simp [GMap.set_by_idx, GMap.get_by_idx, h]

theorem set_get_roundtrip_witness :
    inRangeB mapFix.geom.shape [0] = true ∧
      (mapFix.set_by_idx [0] 42).get_by_idx [0] = some 42 :=
  ⟨by decide, set_get_roundtrip mapFix [0] 42 (by decide)⟩

/-- C10: `fill_by_coord` accumulates rather than overwrites — one event
adds its weight into the containing bin on top of the current content, and
filling a zero-created map twice with the same event list yields exactly
twice the binned counts of a single fill. -/
theorem fill_accumulates (g : Geom) (events : List (List ℚ × ℚ)) :
    (∀ (m : GMap) (c : List ℚ) (w : ℚ) (idx : List ℤ),
        m.geom.coordToIdx c = some idx → inRangeB m.geom.shape idx = true →
        (m.fillOne c w).data idx = m.data idx + w) ∧
    (∀ j, (((GMap.create g).fill_by_coord events).fill_by_coord events).data j =
        2 * ((GMap.create g).fill_by_coord events).data j) := by
  constructor
  · intro m c w idx hres hin
    simp [GMap.fillOne, hres, hin]
  · intro j
    rw [fill_by_coord_data, fill_by_coord_data, fill_by_coord_geom]
    simp [GMap.create]
    ring

/-- A one-bin fixture geometry resolving every coordinate to the single
bin. -/
def geomFix : Geom := ⟨[1], fun _ => some [0]⟩

theorem fill_accumulates_witness :
    geomFix.coordToIdx [0] = some [0] ∧ inRangeB geomFix.shape [0] = true ∧
      ((GMap.create geomFix).fillOne [0] 1).data [0] =
        (GMap.create geomFix).data [0] + 1 ∧
      (((GMap.create geomFix).fill_by_coord [([0], 1)]).fill_by_coord
          [([0], 1)]).data [0] =
        2 * ((GMap.create geomFix).fill_by_coord [([0], 1)]).data [0] :=
  ⟨rfl, by decide,
    (fill_accumulates geomFix [([0], 1)]).1 (GMap.create geomFix) [0] 1 [0]
      rfl (by decide),
    (fill_accumulates geomFix [([0], 1)]).2 [0]⟩

/-- C8: stacking requires geometry compatibility and fails with
`StackError` otherwise; on a shared geometry it accumulates counts,
exposure and background additively, and the stacked counts of two datasets
histogrammed from two event lists agree bin-by-bin with histogramming the
combined event list once. -/
theorem stack_histogram_additive :
    (∀ d1 d2 : Dataset, d1.counts.geom.shape ≠ d2.counts.geom.shape →
        d1.stack d2 = .error .geomMismatch) ∧
    (∀ (g : Geom) (E1 E2 : List (List ℚ)) (e1 b1 e2 b2 : GMap),
        (mkDataset g E1 e1 b1).stack (mkDataset g E2 e2 b2) =
          .ok ⟨(histogram g E1).addData (histogram g E2),
               e1.addData e2, b1.addData b2⟩) ∧
    (∀ (g : Geom) (E1 E2 : List (List ℚ)) (j : List ℤ),
        ((histogram g E1).addData (histogram g E2)).data j =
          (histogram g (E1 ++ E2)).data j) := by
  refine ⟨fun d1 d2 h => ?_, fun g E1 E2 e1 b1 e2 b2 => ?_, fun g E1 E2 j => ?_⟩
  · rw [Dataset.stack, if_neg h]
  · have hg1 : (histogram g E1).geom = g := fill_by_coord_geom _ _
    have hg2 : (histogram g E2).geom = g := fill_by_coord_geom _ _
    rw [Dataset.stack, if_pos]
    · rfl
    · show (histogram g E1).geom.shape = (histogram g E2).geom.shape
      rw [hg1, hg2]
  · rw [GMap.addData]
    simp only [histogram_data]
    rw [List.map_append]
    simp [fillDeltas]

theorem stack_histogram_additive_witness :
    mapFix.geom.shape ≠ (GMap.create geomFix).geom.shape ∧
      (Dataset.mk mapFix mapFix mapFix).stack
          (Dataset.mk (GMap.create geomFix) mapFix mapFix) =
        .error .geomMismatch :=
  ⟨by decide,
    (stack_histogram_additive).1 (Dataset.mk mapFix mapFix mapFix)
      (Dataset.mk (GMap.create geomFix) mapFix mapFix) (by decide)⟩

/-! ### Slicing maps with named non-spatial axes

Modelled from the spec: `Map.slice_by_idx` selects on named non-spatial
axes; passing a single integer index drops that axis from the returned map
("because we extracted only a single image, the energy axes is dropped"),
a slice range keeps the axis with updated binning, and naming an axis the
geometry does not have is a typed error, not a no-op.  The spatial
dimensions are untouched by slicing and are left out of this model. -/

/-- A geometry facet recording only the ordered list of named non-spatial
axes with their bin counts. -/
structure NamedGeom where
  axes : List (String × ℕ)

/-- Modelled from the spec: the argument to `slice_by_idx` for one axis —
either a single integer index or a slice range `[a, b)`. -/
inductive SliceArg where
  | single (i : ℕ)
  | range (a b : ℕ)

/-- Modelled from the spec: the typed error raised when slicing names an
axis the geometry does not have (e.g. an already-dropped axis). -/
inductive SliceError where
  | axisNotFound
deriving DecidableEq

/-- A map over named non-spatial axes: data indexed positionally in the
order of `geom.axes`. -/
structure NMap where
  geom : NamedGeom
  data : List ℕ → ℚ

/-- Modelled from the spec: `slice_by_idx` on one named axis.  A single
integer drops the axis (the data closure re-inserts the fixed index); a
range keeps the axis with updated bin count (clipped to the axis length);
an unknown axis name fails with `SliceError.axisNotFound`. -/
def NMap.slice_by_idx (m : NMap) (nm : String) (s : SliceArg) :
    Except SliceError NMap :=
  match m.geom.axes.findIdx? (fun p => p.1 == nm) with
  | none => .error .axisNotFound
  | some k =>
      match s with
      | .single i =>
          .ok ⟨⟨m.geom.axes.eraseIdx k⟩, fun js => m.data (js.insertIdx k i)⟩
      | .range a b =>
          let n := (m.geom.axes.getD k ("", 0)).2
          .ok ⟨⟨m.geom.axes.set k (nm, min b n - a)⟩,
               fun js => m.data (js.set k (a + js.getD k 0))⟩

/-- C6: on a map whose non-spatial axes are a single "energy" axis, slicing
with a single integer drops the axis (and the data picks out that index),
slicing with a range keeps the axis with the updated bin count, and slicing
the single-index result again by "energy" fails with an error — it is not a
no-op. -/
theorem slice_single_drops_range_keeps (m : NMap) (n : ℕ)
    (h : m.geom.axes = [("energy", n)]) :
    (∀ i : ℕ, ∃ m' : NMap,
        m.slice_by_idx "energy" (.single i) = .ok m' ∧
        m'.geom.axes = [] ∧
        (∀ s', m'.slice_by_idx "energy" s' = .error .axisNotFound) ∧
        (∀ js, m'.data js = m.data (js.insertIdx 0 i))) ∧
    (∀ a b : ℕ, b ≤ n → ∃ m'' : NMap,
        m.slice_by_idx "energy" (.range a b) = .ok m'' ∧
        m''.geom.axes = [("energy", b - a)]) := by
  have hfind : m.geom.axes.findIdx? (fun p => p.1 == "energy") = some 0 := by
    rw [h]; rfl
  constructor
  · intro i
    refine ⟨⟨⟨m.geom.axes.eraseIdx 0⟩, fun js => m.data (js.insertIdx 0 i)⟩,
        ?_, ?_, ?_, fun js => rfl⟩
    · rw [NMap.slice_by_idx, hfind]
    · rw [h]; rfl
    · intro s'
      rw [NMap.slice_by_idx]
      have : (NamedGeom.mk (m.geom.axes.eraseIdx 0)).axes.findIdx?
          (fun p => p.1 == "energy") = none := by
        rw [h]; rfl
      rw [this]
  · intro a b hb
    refine ⟨⟨⟨m.geom.axes.set 0 ("energy",
        min b (m.geom.axes.getD 0 ("", 0)).2 - a)⟩,
        fun js => m.data (js.set 0 (a + js.getD 0 0))⟩, ?_, ?_⟩
    · rw [NMap.slice_by_idx, hfind]
    · rw [h]
      show [("energy", min b n - a)] = [("energy", b - a)]
      rw [min_eq_left hb]

/-- A concrete fixture map with a single four-bin "energy" axis. -/
def nmapFix : NMap := ⟨⟨[("energy", 4)]⟩, fun _ => 0⟩

/-- The result of dropping the energy axis of `nmapFix` at index 3. -/
def nmapSlicedFix : NMap := ⟨⟨[]⟩, fun js => nmapFix.data (js.insertIdx 0 3)⟩

theorem slice_single_drops_range_keeps_witness :
    nmapFix.slice_by_idx "energy" (.single 3) = .ok nmapSlicedFix ∧
    nmapSlicedFix.geom.axes = [] ∧
    nmapSlicedFix.slice_by_idx "energy" (.single 3) = .error .axisNotFound := by
  obtain ⟨hsingle, _⟩ := slice_single_drops_range_keeps nmapFix 4 rfl
  obtain ⟨m', hm1, hm2, hm3, _⟩ := hsingle 3
  have hm : m' = nmapSlicedFix := by
    have hok : (Except.ok m' : Except SliceError NMap) = .ok nmapSlicedFix := by
      rw [← hm1]; rfl
    exact Except.ok.inj hok
  rw [hm] at hm1 hm2 hm3
  exact ⟨hm1, hm2, hm3 (.single 3)⟩

/-! ### The forward-folding evaluator

Modelled from the spec (§ "Dataset / Evaluator"): predicted counts are
computed by (1) evaluating the source model flux on the true-energy grid,
(2) multiplying element-wise by the exposure map, (3) convolving each
true-energy slice independently with the PSF kernel, (4) contracting with
the energy-dispersion matrix along the energy axis onto the
reconstructed-energy geometry, and (5) adding `background_model.norm ×
background_map`.  Cubes are represented as functions over `Fin` index
types: `nT` true-energy bins, `nR` reconstructed-energy bins, an `ny × nx`
spatial grid, and a PSF support radius `r`. -/

/-- Modelled from the spec: a PSF kernel — a small spatial map of relative
weights, one `(2r+1) × (2r+1)` window per true-energy slice. -/
structure PSFKernelData (nT r : ℕ) where
  w : Fin nT → Fin (2 * r + 1) → Fin (2 * r + 1) → ℚ

/-- The sum of the kernel weights of one true-energy slice. -/
def sliceSum {nT r : ℕ} (k : PSFKernelData nT r) (e : Fin nT) : ℚ :=
  ∑ i, ∑ j, k.w e i j

/-- The spec's normalization tolerance for PSF kernel slices. -/
def psfTol : ℚ := 1 / 1000000

/-- Modelled from the spec: configuration errors fail fast at construction
time with a typed error. -/
inductive ConfigError where
  | psfNotNormalized
deriving DecidableEq

/-- Modelled from the spec: a PSF kernel is checked for per-energy-slice
normalization (each slice sums to 1 within `psfTol`) before it may be used;
a violating kernel is a configuration error. -/
def validatePSF {nT r : ℕ} (k : PSFKernelData nT r) :
    Except ConfigError (PSFKernelData nT r) :=
  if ∀ e, |sliceSum k e - 1| ≤ psfTol then .ok k else .error .psfNotNormalized

/-- Zero-padded access into a spatial slice: pixels outside the grid
contribute nothing to a convolution. -/
def getPix {ny nx : ℕ} (img : Fin ny → Fin nx → ℚ) (y x : ℤ) : ℚ :=
  if hy : 0 ≤ y ∧ y < (ny : ℤ) then
    if hx : 0 ≤ x ∧ x < (nx : ℤ) then
      img ⟨y.toNat, by omega⟩ ⟨x.toNat, by omega⟩
    else 0
  else 0

/-- Modelled from the spec: direct 2-D convolution of one spatial slice
with one kernel window (offsets run over `[-r, r]` in both directions). -/
def convolveSlice {ny nx r : ℕ} (k : Fin (2 * r + 1) → Fin (2 * r + 1) → ℚ)
    (img : Fin ny → Fin nx → ℚ) : Fin ny → Fin nx → ℚ :=
  fun y x => ∑ dy, ∑ dx,
    k dy dx * getPix img ((y : ℤ) - ((dy : ℤ) - r)) ((x : ℤ) - ((dx : ℤ) - r))

/-- Step 1: evaluate the model flux on the true-energy grid — spatial model
at each pixel times spectral model integrated over each energy bin. -/
def evalFlux {nT ny nx : ℕ} (spatial : Fin ny → Fin nx → ℚ)
    (spectral : Fin nT → ℚ) : Fin nT → Fin ny → Fin nx → ℚ :=
  fun e y x => spatial y x * spectral e

/-- Step 2: element-wise multiplication by the exposure map. -/
def applyExposure {nT ny nx : ℕ} (exposure c : Fin nT → Fin ny → Fin nx → ℚ) :
    Fin nT → Fin ny → Fin nx → ℚ :=
  fun e y x => c e y x * exposure e y x

/-- Step 3: PSF convolution applied slice-by-slice along the energy axis. -/
def applyPSF {nT ny nx r : ℕ} (k : PSFKernelData nT r)
    (c : Fin nT → Fin ny → Fin nx → ℚ) : Fin nT → Fin ny → Fin nx → ℚ :=
  fun e => convolveSlice (k.w e) (c e)

/-- Step 4: contraction with the energy-dispersion probability matrix along
the energy axis, producing a cube on the reconstructed-energy geometry. -/
def applyEdisp {nT nR ny nx : ℕ} (edisp : Fin nT → Fin nR → ℚ)
    (c : Fin nT → Fin ny → Fin nx → ℚ) : Fin nR → Fin ny → Fin nx → ℚ :=
  fun rE y x => ∑ tE, c tE y x * edisp tE rE

/-- Step 5: add the background map scaled by the background-model norm. -/
def addBackground {nR ny nx : ℕ} (norm : ℚ) (bg c : Fin nR → Fin ny → Fin nx → ℚ) :
    Fin nR → Fin ny → Fin nx → ℚ :=
  fun rE y x => c rE y x + norm * bg rE y x

/-- Modelled from the spec: the forward-folding evaluator — source model
(spatial × spectral), exposure, PSF kernel, energy-dispersion matrix, and
scalable background on the reconstructed-energy geometry. -/
structure MapEvaluator (nT nR ny nx r : ℕ) where
  spatial : Fin ny → Fin nx → ℚ
  spectral : Fin nT → ℚ
  exposure : Fin nT → Fin ny → Fin nx → ℚ
  psf : PSFKernelData nT r
  edisp : Fin nT → Fin nR → ℚ
  bgNorm : ℚ
  background : Fin nR → Fin ny → Fin nx → ℚ

/-- Modelled from the spec: `MapEvaluator.compute_npred` — total predicted
counts in reconstructed-energy bins, written out as one closed formula. -/
def MapEvaluator.compute_npred {nT nR ny nx r : ℕ}
    (ev : MapEvaluator nT nR ny nx r) : Fin nR → Fin ny → Fin nx → ℚ :=
  fun rE y x =>
    (∑ tE, (∑ dy, ∑ dx, ev.psf.w tE dy dx *
        getPix (fun y' x' => ev.spatial y' x' * ev.spectral tE * ev.exposure tE y' x')
          ((y : ℤ) - ((dy : ℤ) - r)) ((x : ℤ) - ((dx : ℤ) - r)))
      * ev.edisp tE rE)
    + ev.bgNorm * ev.background rE y x

/-- Modelled from the spec: evaluator construction validates the PSF kernel
normalization first, so a violating kernel is caught as a configuration
error before any evaluation, never used silently. -/
def mkMapEvaluator {nT nR ny nx r : ℕ} (spatial : Fin ny → Fin nx → ℚ)
    (spectral : Fin nT → ℚ) (exposure : Fin nT → Fin ny → Fin nx → ℚ)
    (psf : PSFKernelData nT r) (edisp : Fin nT → Fin nR → ℚ) (bgNorm : ℚ)
    (background : Fin nR → Fin ny → Fin nx → ℚ) :
    Except ConfigError (MapEvaluator nT nR ny nx r) :=
  (validatePSF psf).map fun k =>
    ⟨spatial, spectral, exposure, k, edisp, bgNorm, background⟩

/-! ### Claim theorems about the evaluator -/

/-- C1: `compute_npred` is exactly the five-step pipeline in order — model
flux on the true-energy grid, times exposure, PSF-convolved slice-by-slice,
contracted with the energy-dispersion matrix onto the reconstructed-energy
geometry, plus `bgNorm ×` background — and the PSF step never mixes energy
slices spatially: slice `e` of its output depends only on slice `e` of its
input. -/
theorem compute_npred_pipeline {nT nR ny nx r : ℕ}
    (ev : MapEvaluator nT nR ny nx r) :
    ev.compute_npred =
      addBackground ev.bgNorm ev.background
        (applyEdisp ev.edisp (applyPSF ev.psf
          (applyExposure ev.exposure (evalFlux ev.spatial ev.spectral)))) ∧
    (∀ (c c' : Fin nT → Fin ny → Fin nx → ℚ) (e : Fin nT), c e = c' e →
        applyPSF ev.psf c e = applyPSF ev.psf c' e) := by
  constructor
  · rfl
  · intro c c' e h
    show convolveSlice (ev.psf.w e) (c e) = convolveSlice (ev.psf.w e) (c' e)
    rw [h]

/-- A concrete one-bin evaluator on a 1×1 grid with a trivial PSF. -/
def evFix : MapEvaluator 1 1 1 1 0 :=
  ⟨fun _ _ => 2, fun _ => 3, fun _ _ _ => 5, ⟨fun _ _ _ => 1⟩,
   fun _ _ => 1, 1, fun _ _ _ => 7⟩

/-- A concrete one-bin true-counts cube fixture. -/
def cubeFix : Fin 1 → Fin 1 → Fin 1 → ℚ := fun _ _ _ => 4

theorem compute_npred_pipeline_witness :
    evFix.compute_npred =
      addBackground evFix.bgNorm evFix.background
        (applyEdisp evFix.edisp (applyPSF evFix.psf
          (applyExposure evFix.exposure (evalFlux evFix.spatial evFix.spectral)))) ∧
    applyPSF evFix.psf cubeFix 0 = applyPSF evFix.psf cubeFix 0 :=
  ⟨(compute_npred_pipeline evFix).1,
   (compute_npred_pipeline evFix).2 cubeFix cubeFix 0 rfl⟩

/-- C7: a PSF kernel accepted by validation has every energy slice summing
to 1 within 1e-6; a kernel violating the normalization is rejected with a
configuration error; and every successfully constructed evaluator carries a
validated kernel, so an unnormalized kernel is caught before evaluation and
never used silently. -/
theorem psf_normalization_invariant {nT nR ny nx r : ℕ}
    (k : PSFKernelData nT r) :
    (∀ k', validatePSF k = .ok k' → ∀ e, |sliceSum k' e - 1| ≤ psfTol) ∧
    ((¬ ∀ e, |sliceSum k e - 1| ≤ psfTol) →
        validatePSF k = .error .psfNotNormalized) ∧
    (∀ (spatial : Fin ny → Fin nx → ℚ) (spectral : Fin nT → ℚ)
        (exposure : Fin nT → Fin ny → Fin nx → ℚ) (edisp : Fin nT → Fin nR → ℚ)
        (bgNorm : ℚ) (background : Fin nR → Fin ny → Fin nx → ℚ)
        (ev : MapEvaluator nT nR ny nx r),
        mkMapEvaluator spatial spectral exposure k edisp bgNorm background =
          .ok ev → ∀ e, |sliceSum ev.psf e - 1| ≤ psfTol) := by
  refine ⟨fun k' hok e => ?_, fun hbad => ?_, ?_⟩
  · rw [validatePSF] at hok
    by_cases h : ∀ e, |sliceSum k e - 1| ≤ psfTol
    · rw [if_pos h] at hok
      cases hok
      exact h e
    · rw [if_neg h] at hok
      cases hok
  · rw [validatePSF, if_neg hbad]
  · intro spatial spectral exposure edisp bgNorm background ev hok e
    rw [mkMapEvaluator, validatePSF] at hok
    by_cases h : ∀ e, |sliceSum k e - 1| ≤ psfTol
    · rw [if_pos h] at hok
      cases hok
      exact h e
    · rw [if_neg h] at hok
      cases hok

/-- A normalized one-slice PSF kernel fixture (single weight 1). -/
def psfGood : PSFKernelData 1 0 := ⟨fun _ _ _ => 1⟩

/-- An unnormalized one-slice PSF kernel fixture (single weight 0). -/
def psfBad : PSFKernelData 1 0 := ⟨fun _ _ _ => 0⟩

theorem psf_normalization_invariant_witness :
    |sliceSum psfGood 0 - 1| ≤ psfTol ∧
    validatePSF psfBad = .error .psfNotNormalized := by
  have hgood : ∀ e, |sliceSum psfGood e - 1| ≤ psfTol := by
    intro e
    norm_num [sliceSum, psfGood, psfTol, Finset.sum_const, Finset.card_univ]
  have hbad : ¬ ∀ e, |sliceSum psfBad e - 1| ≤ psfTol := by
    intro hc
    have h := hc 0
    norm_num [sliceSum, psfBad, psfTol, Finset.sum_const, Finset.card_univ] at h
  exact ⟨(@psf_normalization_invariant 1 1 1 1 0 psfGood).1 psfGood
      (by rw [validatePSF, if_pos hgood]) 0,
    (@psf_normalization_invariant 1 1 1 1 0 psfBad).2.1 hbad⟩

/-! ### The Cash fit statistic

Modelled from the spec: the per-bin Poisson (Cash) statistic is
`2 * (predicted - observed + observed * log(observed / predicted))`, with
the convention that bins where `observed = 0` contribute `2 * predicted`;
the dataset statistic sums the per-bin statistic over the bins kept by the
fit mask — masked-out bins are removed from the sum entirely.  A bin is a
triple of observed counts, predicted counts and its mask flag. -/

/-- Modelled from the spec: the per-bin Cash statistic with the
`observed = 0` convention. -/
noncomputable def cashBin (obs : ℕ) (pred : ℝ) : ℝ :=
  if obs = 0 then 2 * pred
  else 2 * (pred - obs + obs * Real.log (obs / pred))

/-- Modelled from the spec: the dataset Cash statistic — the per-bin
statistic summed over the unmasked bins only (bins excluded by the fit mask
are removed from the sum, not set to zero). -/
noncomputable def cashStat (bins : List (ℕ × ℝ × Bool)) : ℝ :=
  ((bins.filter fun b => b.2.2).map fun b => cashBin b.1 b.2.1).sum

/-- C2: the Cash statistic is the sum over unmasked bins of
`2 * (pred - obs + obs * log(obs / pred))` with zero-observed bins
contributing `2 * pred`; bins excluded by the mask are removed from the sum
entirely (prepending a masked bin leaves the statistic unchanged); and for
a one-bin dataset with observed = 10 and predicted = 10 the statistic is
zero. -/
theorem cash_statistic_spec :
    (∀ bins : List (ℕ × ℝ × Bool),
        cashStat bins = ((bins.filter fun b => b.2.2).map fun b =>
          if b.1 = 0 then 2 * b.2.1
          else 2 * (b.2.1 - b.1 + b.1 * Real.log (b.1 / b.2.1))).sum) ∧
    (∀ (b : ℕ × ℝ × Bool) (rest : List (ℕ × ℝ × Bool)), b.2.2 = false →
        cashStat (b :: rest) = cashStat rest) ∧
    (∀ pred : ℝ, cashBin 0 pred = 2 * pred) ∧
    cashStat [(10, 10, true)] = 0 := by
  refine ⟨fun bins => rfl, fun b rest h => ?_, fun pred => rfl, ?_⟩
  · simp [cashStat, h]
  · show cashBin 10 10 + 0 = 0
    rw [cashBin]
    norm_num

theorem cash_statistic_spec_witness :
    cashStat [((5 : ℕ), (3 : ℝ), false), (10, 10, true)] =
        cashStat [((10 : ℕ), (10 : ℝ), true)] ∧
    cashStat [((10 : ℕ), (10 : ℝ), true)] = 0 :=
  ⟨cash_statistic_spec.2.1 (5, 3, false) [(10, 10, true)] rfl,
   cash_statistic_spec.2.2.2⟩

/-! ### Axes: binning, coordinate→index and coordinate→pixel transforms

Modelled from the spec (§4.1): an `Axis` holds an ordered sequence of bin
edges and an interpolation mode (`linear` | `log`); `from_bounds` produces
`n` bins linearly or logarithmically spaced between `lo` and `hi` (failing
with `InvalidRangeError` when `lo ≥ hi`, or when `interp = log` and
`lo ≤ 0`); `from_edges` wraps an explicit edge list; bin centers are the
arithmetic (linear) or geometric (log) midpoints of consecutive edges;
`coord_to_idx` maps a value to the containing bin using the edges, with an
out-of-range sentinel (`none`); `coord_to_pix` is a continuous fractional
pixel coordinate, linear in value-space for `linear` interpolation and
linear in log(value)-space for `log` interpolation, with `pix = k` exactly
at edge `k`. -/

/-- Modelled from the spec: the axis interpolation mode. -/
inductive Interp where
  | linear
  | log
deriving DecidableEq

/-- The value transform under which an interpolation mode is linear:
identity for `linear`, logarithm for `log`. -/
noncomputable def interpF : Interp → ℝ → ℝ
  | .linear => fun v => v
  | .log => Real.log

/-- Modelled from the spec: an axis is an ordered edge sequence plus an
interpolation mode. -/
structure MapAxis where
  edges : List ℝ
  interp : Interp

/-- Modelled from the spec: `from_edges` wraps an explicit edge sequence. -/
def MapAxis.from_edges (edges : List ℝ) (interp : Interp) : MapAxis :=
  ⟨edges, interp⟩

/-- Modelled from the spec: the typed error raised by `from_bounds` on an
invalid range. -/
inductive AxisError where
  | invalidRange
deriving DecidableEq

/-- The uniformly spaced edge list of `from_bounds`: arithmetic steps in
value space for `linear`, in log space for `log`. -/
noncomputable def boundsEdges (lo hi : ℝ) (n : ℕ) : Interp → List ℝ
  | .linear => (List.range (n + 1)).map fun k : ℕ => lo + k * ((hi - lo) / n)
  | .log => (List.range (n + 1)).map fun k : ℕ =>
      Real.exp (Real.log lo + k * ((Real.log hi - Real.log lo) / n))

open Classical in
/-- Modelled from the spec: `from_bounds(lo, hi, n, interp)` produces `n`
bins linearly or logarithmically spaced between `lo` and `hi`; it fails
with `InvalidRangeError` if `lo ≥ hi` or (`interp = log` and `lo ≤ 0`). -/
noncomputable def MapAxis.from_bounds (lo hi : ℝ) (n : ℕ) (interp : Interp) :
    Except AxisError MapAxis :=
  if lo < hi ∧ (interp = .log → 0 < lo) then
    .ok (MapAxis.from_edges (boundsEdges lo hi n interp) interp)
  else .error .invalidRange

/-- Modelled from the spec: the midpoint of consecutive edges — arithmetic
mean for `linear`, geometric mean for `log`. -/
noncomputable def midOf : Interp → ℝ → ℝ → ℝ
  | .linear, a, b => (a + b) / 2
  | .log, a, b => Real.sqrt (a * b)

/-- Modelled from the spec: the derived bin-center sequence — one midpoint
per pair of consecutive edges. -/
noncomputable def MapAxis.center (a : MapAxis) : List ℝ :=
  (a.edges.zip a.edges.tail).map fun p => midOf a.interp p.1 p.2

/-- The center of bin `i` (0 outside the axis). -/
noncomputable def centerAt (a : MapAxis) (i : ℕ) : ℝ := a.center.getD i 0

/-- The containing half-open bin `[e_i, e_{i+1})` of a value in an edge
list, the last bin closed above; `none` when the value is outside
`[edges[0], edges[-1]]` (the spec's out-of-range sentinel). -/
noncomputable def findBin : List ℝ → ℝ → Option ℕ
  | e0 :: e1 :: rest, v =>
      if e0 ≤ v ∧ (v < e1 ∨ (rest = [] ∧ v ≤ e1)) then some 0
      else (findBin (e1 :: rest) v).map (· + 1)
  | _, _ => none

/-- Modelled from the spec: `coord_to_idx` maps a physical value to the
containing bin index using the edges, with a sentinel (`none`) for
out-of-range values instead of a crash. -/
noncomputable def MapAxis.coord_to_idx (a : MapAxis) (v : ℝ) : Option ℕ :=
  findBin a.edges v

/-- Modelled from the spec: `coord_to_pix` returns a continuous fractional
pixel coordinate — the bin index plus the fractional position of the value
inside the bin, measured in value space for `linear` interpolation and in
log space for `log` interpolation, so that edge `k` is at pixel `k`. -/
noncomputable def MapAxis.coord_to_pix (a : MapAxis) (v : ℝ) : Option ℝ :=
  (findBin a.edges v).map fun (i : ℕ) =>
    (i : ℝ) + (interpF a.interp v - interpF a.interp (a.edges.getD i 0)) /
      (interpF a.interp (a.edges.getD (i + 1) 0) - interpF a.interp (a.edges.getD i 0))

/-- The slope of `coord_to_pix` on bin `i` as a function of the transformed
coordinate. -/
noncomputable def pixSlope (a : MapAxis) (i : ℕ) : ℝ :=
  1 / (interpF a.interp (a.edges.getD (i + 1) 0) - interpF a.interp (a.edges.getD i 0))

/-- The intercept of `coord_to_pix` on bin `i` as a function of the
transformed coordinate. -/
noncomputable def pixIntercept (a : MapAxis) (i : ℕ) : ℝ :=
  (i : ℝ) - interpF a.interp (a.edges.getD i 0) * pixSlope a i

/-! #### Helper lemmas for edge lists -/

theorem getD_map_range {f : ℕ → ℝ} {n i : ℕ} (hi : i < n) :
    ((List.range n).map f).getD i 0 = f i := by
  rw [List.getD_eq_getElem _ _ (by simpa using hi)]
  simp

theorem getD_map_zip (l1 l2 : List ℝ) (m : ℝ → ℝ → ℝ) (i : ℕ)
    (h1 : i < l1.length) (h2 : i < l2.length) :
    ((l1.zip l2).map fun p => m p.1 p.2).getD i 0 =
      m (l1.getD i 0) (l2.getD i 0) := by
  rw [List.getD_eq_getElem _ _ (by simp [List.length_zip]; omega),
    List.getD_eq_getElem _ _ h1, List.getD_eq_getElem _ _ h2]
  simp

theorem getD_tail (l : List ℝ) (i : ℕ) (h : i + 1 < l.length) :
    l.tail.getD i 0 = l.getD (i + 1) 0 := by
  rcases l with _ | ⟨a, tl⟩
  · simp at h
  · simp [List.getD_cons_succ]

theorem sorted_head_le_getD {x : ℝ} {tl : List ℝ}
    (hs : (x :: tl).Sorted (· < ·)) {j : ℕ} (hj : j < (x :: tl).length) :
    x ≤ (x :: tl).getD j 0 := by
  cases j with
  | zero => simp [List.getD_cons_zero]
  | succ m =>
      rw [List.getD_cons_succ]
      have hx : ∀ b ∈ tl, x < b := (List.sorted_cons.mp hs).1
      have hm : m < tl.length := by simpa using hj
      rw [List.getD_eq_getElem _ _ hm]
      exact le_of_lt (hx _ (List.getElem_mem hm))

theorem findBin_eq_of_mem (l : List ℝ) (hs : l.Sorted (· < ·)) (i : ℕ) (v : ℝ)
    (hi : i + 1 < l.length) (hlo : l.getD i 0 ≤ v) (hhi : v < l.getD (i + 1) 0) :
    findBin l v = some i := by
  induction l generalizing i with
  | nil => simp at hi
  | cons e0 tl ih =>
      cases tl with
      | nil => simp at hi
      | cons e1 rest =>
          cases i with
          | zero =>
              show (if e0 ≤ v ∧ (v < e1 ∨ (rest = [] ∧ v ≤ e1)) then some 0
                    else (findBin (e1 :: rest) v).map (· + 1)) = some 0
              rw [if_pos ⟨by simpa using hlo, Or.inl (by simpa using hhi)⟩]
          | succ j =>
              have hlo' : (e1 :: rest).getD j 0 ≤ v := by simpa using hlo
              have hhi' : v < (e1 :: rest).getD (j + 1) 0 := by simpa using hhi
              have hi' : j + 1 < (e1 :: rest).length := by simpa using hi
              have hs' : (e1 :: rest).Sorted (· < ·) := (List.sorted_cons.mp hs).2
              have he1v : e1 ≤ v :=
                le_trans (sorted_head_le_getD hs' (Nat.lt_of_succ_lt hi')) hlo'
              show (if e0 ≤ v ∧ (v < e1 ∨ (rest = [] ∧ v ≤ e1)) then some 0
                    else (findBin (e1 :: rest) v).map (· + 1)) = some (j + 1)
              rw [if_neg, ih hs' j hi' hlo' hhi']
              · rfl
              · rintro ⟨-, h2 | ⟨hrest, -⟩⟩
                · exact absurd h2 (not_lt.mpr he1v)
                · rw [hrest] at hi'
                  simp at hi'

theorem sorted_map_range {f : ℕ → ℝ} (hf : StrictMono f) (m : ℕ) :
    ((List.range m).map f).Sorted (· < ·) :=
  List.Pairwise.map f (fun _ _ hab => hf hab) (List.pairwise_lt_range m)

theorem strictMono_affine (lo s : ℝ) (hs : 0 < s) :
    StrictMono fun k : ℕ => lo + k * s := by
  intro a b hab
  have hab' : (a : ℝ) < b := by exact_mod_cast hab
  simp only
  nlinarith

theorem strictMono_expAffine (c d : ℝ) (hd : 0 < d) :
    StrictMono fun k : ℕ => Real.exp (c + k * d) := by
  intro a b hab
  have hab' : (a : ℝ) < b := by exact_mod_cast hab
  simp only
  apply Real.exp_lt_exp.mpr
  nlinarith

theorem mid_linear_mem {a b : ℝ} (h : a < b) :
    a ≤ midOf .linear a b ∧ midOf .linear a b < b := by
  show a ≤ (a + b) / 2 ∧ (a + b) / 2 < b
  constructor <;> linarith

theorem mid_log_mem {a b : ℝ} (h0 : 0 < a) (h : a < b) :
    a ≤ midOf .log a b ∧ midOf .log a b < b := by
  show a ≤ Real.sqrt (a * b) ∧ Real.sqrt (a * b) < b
  constructor
  · calc a = Real.sqrt (a * a) := (Real.sqrt_mul_self h0.le).symm
      _ ≤ Real.sqrt (a * b) := Real.sqrt_le_sqrt (by nlinarith)
  · calc Real.sqrt (a * b) < Real.sqrt (b * b) :=
        Real.sqrt_lt_sqrt (by nlinarith) (by nlinarith)
      _ = b := Real.sqrt_mul_self (by linarith)

/-- The coordinate→index round-trip for a uniform axis built over the edge
function `f`, given that the bin-`i` midpoint lies inside bin `i`. -/
theorem coord_to_idx_center_of_mid (f : ℕ → ℝ) (interp : Interp) (n i : ℕ)
    (hin : i < n) (hmono : StrictMono f)
    (hmid_lo : f i ≤ midOf interp (f i) (f (i + 1)))
    (hmid_hi : midOf interp (f i) (f (i + 1)) < f (i + 1)) :
    (MapAxis.from_edges ((List.range (n + 1)).map f) interp).coord_to_idx
      (centerAt (MapAxis.from_edges ((List.range (n + 1)).map f) interp) i) =
      some i := by
  have hlen : ((List.range (n + 1)).map f).length = n + 1 := by simp
  have hcenter :
      centerAt (MapAxis.from_edges ((List.range (n + 1)).map f) interp) i =
        midOf interp (f i) (f (i + 1)) := by
    show ((((List.range (n + 1)).map f).zip
        ((List.range (n + 1)).map f).tail).map fun p =>
          midOf interp p.1 p.2).getD i 0 = _
    rw [getD_map_zip _ _ _ i (by omega) (by simp [List.length_tail]; omega),
      getD_tail _ _ (by omega), getD_map_range (by omega),
      getD_map_range (by omega)]
  rw [MapAxis.coord_to_idx, hcenter]
  exact findBin_eq_of_mem _ (sorted_map_range hmono (n + 1)) i _ (by omega)
    (by rw [getD_map_range (by omega)]; exact hmid_lo)
    (by rw [getD_map_range (by omega)]; exact hmid_hi)

/-! #### Claim theorems about axes -/

/-- C3: for every axis built by `from_bounds(lo, hi, n, interp)` and every
bin `i < n`, `coord_to_idx(center[i]) = i`; and `from_edges` round-trips a
strictly increasing edge sequence exactly. -/
theorem axis_roundtrip :
    (∀ (lo hi : ℝ) (n : ℕ) (interp : Interp) (a : MapAxis),
        MapAxis.from_bounds lo hi n interp = .ok a →
        ∀ i : ℕ, i < n → a.coord_to_idx (centerAt a i) = some i) ∧
    (∀ (l : List ℝ) (interp : Interp), l.Sorted (· < ·) →
        (MapAxis.from_edges l interp).edges = l) := by
  refine ⟨?_, fun l interp _ => rfl⟩
  intro lo hi n interp a hok i hin
  rw [MapAxis.from_bounds] at hok
  by_cases hc : lo < hi ∧ (interp = .log → 0 < lo)
  swap
  · rw [if_neg hc] at hok; cases hok
  rw [if_pos hc] at hok
  obtain ⟨hlohi, hlog⟩ := hc
  have hn : 0 < n := lt_of_le_of_lt (Nat.zero_le i) hin
  cases hok
  cases interp with
  | linear =>
      have hs : 0 < (hi - lo) / n := by
        apply div_pos (by linarith) (by exact_mod_cast hn)
      have hmono := strictMono_affine lo ((hi - lo) / n) hs
      have hstep := hmono (Nat.lt_succ_self i)
      exact coord_to_idx_center_of_mid _ _ n i hin hmono
        (mid_linear_mem hstep).1 (mid_linear_mem hstep).2
  | log =>
      have hlo0 : 0 < lo := hlog rfl
      have hd : 0 < (Real.log hi - Real.log lo) / n := by
        apply div_pos (by linarith [Real.log_lt_log hlo0 hlohi])
          (by exact_mod_cast hn)
      have hmono := strictMono_expAffine (Real.log lo)
        ((Real.log hi - Real.log lo) / n) hd
      have hstep := hmono (Nat.lt_succ_self i)
      have h0 : (0 : ℝ) <
          Real.exp (Real.log lo + (i : ℕ) * ((Real.log hi - Real.log lo) / n)) :=
        Real.exp_pos _
      exact coord_to_idx_center_of_mid _ _ n i hin hmono
        (mid_log_mem h0 hstep).1 (mid_log_mem h0 hstep).2

/-- A concrete two-bin linear axis, the value of `from_bounds 1 4 2`. -/
noncomputable def axFix : MapAxis := ⟨[1, 5 / 2, 4], .linear⟩

theorem axis_roundtrip_witness :
    MapAxis.from_bounds 1 4 2 .linear = .ok axFix ∧
    axFix.coord_to_idx (centerAt axFix 0) = some 0 ∧
    axFix.coord_to_idx (centerAt axFix 1) = some 1 ∧
    (MapAxis.from_edges [1, 5 / 2, 4] .linear).edges = [1, 5 / 2, 4] := by
  have hcond : (1 : ℝ) < 4 ∧ (Interp.linear = Interp.log → (0 : ℝ) < 1) :=
    ⟨by norm_num, fun h => nomatch h⟩
  have hfb : MapAxis.from_bounds 1 4 2 .linear = .ok axFix := by
    rw [MapAxis.from_bounds, if_pos hcond]
    norm_num [boundsEdges, MapAxis.from_edges, axFix, List.range_succ]
  refine ⟨hfb, axis_roundtrip.1 1 4 2 .linear axFix hfb 0 (by norm_num),
    axis_roundtrip.1 1 4 2 .linear axFix hfb 1 (by norm_num),
    axis_roundtrip.2 [1, 5 / 2, 4] .linear (by norm_num [List.sorted_cons])⟩

/-- The square root of ten lies in the first bin of the `[1, 10, 100]`
edge list. -/
theorem findBin_sqrt_ten : findBin [1, 10, 100] (Real.sqrt 10) = some 0 := by
  have h1 : (1 : ℝ) ≤ Real.sqrt 10 := by
    rw [show (1 : ℝ) = Real.sqrt 1 from (Real.sqrt_one).symm]
    exact Real.sqrt_le_sqrt (by norm_num)
  have h2 : Real.sqrt 10 < 10 := by
    rw [Real.sqrt_lt' (by norm_num)]
    norm_num
  show (if (1 : ℝ) ≤ Real.sqrt 10 ∧ (Real.sqrt 10 < 10 ∨
      ([(100 : ℝ)] = [] ∧ Real.sqrt 10 ≤ 10)) then some 0
    else (findBin [10, 100] (Real.sqrt 10)).map (· + 1)) = some 0
  rw [if_pos ⟨h1, Or.inl h2⟩]

/-- One half lies in the first bin of the `[0, 1]` edge list. -/
theorem findBin_half : findBin [0, 1] (1 / 2 : ℝ) = some 0 := by
  show (if (0 : ℝ) ≤ 1 / 2 ∧ ((1 : ℝ) / 2 < 1 ∨
      (([] : List ℝ) = [] ∧ (1 : ℝ) / 2 ≤ 1)) then some 0
    else (findBin [1] (1 / 2 : ℝ)).map (· + 1)) = some 0
  rw [if_pos ⟨by norm_num, Or.inl (by norm_num)⟩]

/-- C4: on any bin of a `log`-interpolated axis, `coord_to_pix` is an
affine function of `log v` (slope and intercept depending only on the axis
and the bin); on a `linear` axis it is affine in `v`; and on the log axis
with edges `[1, 10, 100]`, `coord_to_pix(√10) = 0.5` — half-way in log
space — which differs from the value-space fraction `(√10 - 1) / 9`. -/
theorem coord_to_pix_interp_law :
    (∀ a : MapAxis, a.interp = .log → ∀ (i : ℕ) (v : ℝ),
        findBin a.edges v = some i →
        a.coord_to_pix v = some (pixSlope a i * Real.log v + pixIntercept a i)) ∧
    (∀ a : MapAxis, a.interp = .linear → ∀ (i : ℕ) (v : ℝ),
        findBin a.edges v = some i →
        a.coord_to_pix v = some (pixSlope a i * v + pixIntercept a i)) ∧
    (MapAxis.from_edges [1, 10, 100] .log).coord_to_pix (Real.sqrt 10) =
      some (1 / 2) ∧
    (Real.sqrt 10 - 1) / 9 ≠ 1 / 2 := by
  refine ⟨?_, ?_, ?_, ?_⟩
  · intro a hl i v hf
    rw [MapAxis.coord_to_pix, hf, Option.map_some']
    simp only [hl, interpF, pixSlope, pixIntercept]
    congr 1
    ring
  · intro a hl i v hf
    rw [MapAxis.coord_to_pix, hf, Option.map_some']
    simp only [hl, interpF, pixSlope, pixIntercept]
    congr 1
    ring
  · rw [MapAxis.coord_to_pix]
    simp only [MapAxis.from_edges]
    rw [findBin_sqrt_ten, Option.map_some']
    have hlog : (0 : ℝ) < Real.log 10 := Real.log_pos (by norm_num)
    simp only [interpF, List.getD_cons_zero, List.getD_cons_succ]
    rw [Real.log_sqrt (by norm_num), Real.log_one]
    congr 1
    field_simp
    ring
  · intro h
    have h5 : Real.sqrt 10 = 11 / 2 := by linarith
    have h6 : Real.sqrt 10 < 11 / 2 := by
      rw [Real.sqrt_lt' (by norm_num)]
      norm_num
    linarith

theorem coord_to_pix_interp_law_witness :
    (MapAxis.from_edges [1, 10, 100] .log).coord_to_pix (Real.sqrt 10) =
      some (pixSlope (MapAxis.from_edges [1, 10, 100] .log) 0 *
        Real.log (Real.sqrt 10) +
        pixIntercept (MapAxis.from_edges [1, 10, 100] .log) 0) ∧
    (MapAxis.from_edges [0, 1] .linear).coord_to_pix (1 / 2) =
      some (pixSlope (MapAxis.from_edges [0, 1] .linear) 0 * (1 / 2) +
        pixIntercept (MapAxis.from_edges [0, 1] .linear) 0) ∧
    (Real.sqrt 10 - 1) / 9 ≠ 1 / 2 :=
  ⟨coord_to_pix_interp_law.1 (MapAxis.from_edges [1, 10, 100] .log) rfl 0
      (Real.sqrt 10) findBin_sqrt_ten,
   coord_to_pix_interp_law.2.1 (MapAxis.from_edges [0, 1] .linear) rfl 0
      (1 / 2) findBin_half,
   coord_to_pix_interp_law.2.2.2⟩

end Gammapy
